import Mathlib

/-
Verification of the cross-source metrics aggregation and deduplication
pipeline of the software-landscape-analysis notebooks.

The definitions below are a shallow embedding of the Python code in
  notebooks/cytomining-ecosystem/gather-targeted-github-data.py
  notebooks/cytomining-ecosystem/gather-targeted-publication-mentions.py
  notebooks/cytomining-ecosystem/project-git-metrics.py
Calendar months (Python `datetime` restricted to year-month granularity,
as produced by `strptime(s, "%Y-%m")`) become a `Month` structure;
Python `dict`s become insertion-ordered association lists with unique
keys; Python numbers become `Nat`/`Rat`; fallible collaborator calls
become `Except` values consumed by the try/except wrapper functions.
-/

/-- Calendar month at year-month granularity, the result of Python
`datetime.strptime(s, "%Y-%m")` (day component always 1). -/
structure Month where
  year : Nat
  month : Nat
deriving DecidableEq

/-- Total order key for months: `datetime` comparison of two first-of-month
dates agrees with comparison of `12 * year + month`. -/
def Month.toIdx (m : Month) : Nat :=
  12 * m.year + m.month

/-- A month produced by `strptime("%Y-%m")` always has `1 ≤ month ≤ 12`. -/
def Month.valid (m : Month) : Prop :=
  1 ≤ m.month ∧ m.month ≤ 12

instance (m : Month) : Decidable m.valid := by
  unfold Month.valid
  infer_instance

/-- One step of the while-loop in `add_missing_months`:
`current_date += timedelta(days=32); current_date = datetime(year, month, 1)`.
Adding 32 days to the first of a month always lands inside the following
month (month lengths are between 28 and 31), so the step moves to the next
calendar month. -/
def Month.next (m : Month) : Month :=
  if m.month = 12 then ⟨m.year + 1, 1⟩ else ⟨m.year, m.month + 1⟩

/-- Fuel-driven unfolding of the `while current_date <= end_date` loop of
`add_missing_months`; the fuel passed by `monthRange` is exactly the number
of iterations, so the guard, not the fuel, terminates the loop. -/
def monthRangeAux : Nat → Month → Month → List Month
  | 0, _, _ => []
  | fuel + 1, s, e =>
    if s.toIdx ≤ e.toIdx then s :: monthRangeAux fuel (Month.next s) e else []

/-- The ascending list of months visited by the zero-filling while-loop of
`add_missing_months`: every month from `s` through `e` inclusive. -/
def monthRange (s e : Month) : List Month :=
  monthRangeAux (e.toIdx + 1 - s.toIdx) s e

/-- The ascending list of years visited by the zero-filling while-loop of
`add_missing_years`: every year from `s` through `e` inclusive. -/
def yearRange (s e : Nat) : List Nat :=
  (List.range (e + 1 - s)).map (s + ·)

/-- Python `dict` model: an insertion-ordered association list.  Key
uniqueness is not enforced by the type; it is carried as a `Nodup`
hypothesis where a theorem needs it, matching the guarantee a real
`dict` provides. -/
abbrev PyDict (α β : Type) := List (α × β)

/-- Key view of a dict (Python `dict.keys()`, in insertion order). -/
def dictKeys {α β : Type} (d : PyDict α β) : List α :=
  d.map Prod.fst

/-- Python `dict` subscript read `d[k]`: the value stored at the first
(hence, for a real dict, only) occurrence of `k`. -/
def dictGet {α β : Type} [DecidableEq α] : PyDict α β → α → Option β
  | [], _ => none
  | p :: rest, k => if p.1 = k then some p.2 else dictGet rest k

/-- Python `dict` subscript write `d[k] = v`: overwrite in place if the key
exists, otherwise append at the end, preserving insertion order. -/
def dictSet {α β : Type} [DecidableEq α] : PyDict α β → α → β → PyDict α β
  | [], k, v => [(k, v)]
  | p :: rest, k, v =>
    if p.1 = k then (k, v) :: rest else p :: dictSet rest k v

/-- Python `d.update(u)`: write every key-value pair of `u` into `d`, in
`u`'s iteration order. -/
def dictUpdate {α β : Type} [DecidableEq α] (d u : PyDict α β) : PyDict α β :=
  u.foldl (fun acc kv => dictSet acc kv.1 kv.2) d

/-- `add_missing_months(months_data, date_minimum, date_max)` from
gather-targeted-github-data.py: zero-fill every month of the closed range
in ascending order, then `result.update(months_data)`. -/
def add_missing_months (months_data : PyDict Month Nat)
    (date_minimum date_max : Month) : PyDict Month Nat :=
  dictUpdate ((monthRange date_minimum date_max).map (fun m => (m, 0)))
    months_data

/-- `add_missing_years(years_data, date_minimum, date_max)` from
gather-targeted-github-data.py: zero-fill every year of the closed range in
ascending order, then `result.update(years_data)`. -/
def add_missing_years (years_data : PyDict Nat Nat)
    (date_minimum date_max : Month) : PyDict Nat Nat :=
  dictUpdate ((yearRange date_minimum.year date_max.year).map (fun y => (y, 0)))
    years_data

/-- `find_average = lambda nums: sum(nums) / len(nums) if len(nums) > 0
else None` from gather-targeted-github-data.py (numbers as rationals). -/
def find_average (nums : List Rat) : Option Rat :=
  if 0 < nums.length then some (nums.sum / nums.length) else none

/-- Modelled from the spec: `statistics.median` of the Python standard
library (not part of this repository) — sort the data and take the middle
element, or the average of the two middle elements for even length. -/
def statistics_median (nums : List Rat) : Rat :=
  let s := List.insertionSort (· ≤ ·) nums
  let n := s.length
  if n % 2 = 1 then s.getD (n / 2) 0
  else (s.getD (n / 2 - 1) 0 + s.getD (n / 2) 0) / 2

/-- `find_median = lambda nums: statistics.median(nums) if len(nums) > 0
else None` from gather-targeted-github-data.py. -/
def find_median (nums : List Rat) : Option Rat :=
  if 0 < nums.length then some (statistics_median nums) else none

/-- One GitHub code-search hit, as consumed by the "GitHub Code Search
Used By" comprehension: the repository full name (`org/name`), its fork
flag, and the file-name suffix computed by `pathlib.Path(code.name).suffix`. -/
structure CodeSearchResult where
  repository_full_name : String
  repository_fork : Bool
  file_suffix : String
deriving DecidableEq

/-- One entry of the dependency-graph scrape's
`all_public_dependent_repos` list (field `name` is the full name). -/
structure DependentRepo where
  name : String
deriving DecidableEq

/-- The "GitHub Code Search Used By" field of
gather-targeted-github-data.py: keep a hit when its lowercased full name
is neither the project's own lowercased full name nor
"wayscience/software-landscape-analysis", its file suffix is ".py" or
".ipynb", and the repository is not a fork; then collapse the kept full
names to their distinct values (`list(set(...))`). -/
def github_code_search_used_by (results : List CodeSearchResult)
    (repo_full_name : String) : List String :=
  ((results.filter (fun c =>
      (c.repository_full_name.toLower != repo_full_name.toLower) &&
      (c.repository_full_name.toLower != "wayscience/software-landscape-analysis") &&
      (c.file_suffix == ".py" || c.file_suffix == ".ipynb") &&
      !c.repository_fork)).map (fun c => c.repository_full_name)).dedup

/-- The set behind "GitHub Total Dependents Count":
`list(set(code_search_used_by + [repo["name"] for repo in
all_public_dependent_repos]))`. -/
def github_total_dependent_set (code_search_used_by : List String)
    (all_public_dependent_repos : List DependentRepo) : List String :=
  (code_search_used_by ++ all_public_dependent_repos.map DependentRepo.name).dedup

/-- "GitHub Total Dependents Count": the size of the unioned dependent set. -/
def github_total_dependents_count (code_search_used_by : List String)
    (all_public_dependent_repos : List DependentRepo) : Nat :=
  (github_total_dependent_set code_search_used_by all_public_dependent_repos).length

/-- The "all_article_titles" field of
gather-targeted-publication-mentions.py: pool the titles of the Google
Scholar hits and the bioRxiv hits, then collapse exact (case-sensitive)
string duplicates with `list(set(...))`. -/
def all_article_titles (google_scholar_titles bioarxiv_titles : List String) :
    List String :=
  (google_scholar_titles ++ bioarxiv_titles).dedup

/-- "total_pub_count": `len(all_article_titles)`. -/
def total_pub_count (google_scholar_titles bioarxiv_titles : List String) : Nat :=
  (all_article_titles google_scholar_titles bioarxiv_titles).length

/-- Length of a longest common subsequence, by fuel-driven structural
recursion (the fuel passed by `lcs_length` always suffices). -/
def lcsAux : Nat → List Char → List Char → Nat
  | 0, _, _ => 0
  | _ + 1, [], _ => 0
  | _ + 1, _, [] => 0
  | fuel + 1, a :: as, b :: bs =>
    if a = b then lcsAux fuel as bs + 1
    else max (lcsAux fuel (a :: as) bs) (lcsAux fuel as (b :: bs))

/-- Length of a longest common subsequence of two strings. -/
def lcs_length (a b : List Char) : Nat :=
  lcsAux (a.length + b.length) a b

/-- Modelled from the spec: the third-party similarity scorer `fuzz.ratio`
(not part of this repository), "a normalized string-similarity score in
[0, 100] (edit-distance–based ratio is the reference algorithm — e.g.,
Levenshtein ratio)": with indel distance `d = |a| + |b| - 2·lcs`, the score
is `100 · (1 - d / (|a| + |b|)) = 200·lcs / (|a| + |b|)`, and `100` for two
empty strings. -/
def fuzz_ratio (a b : String) : Nat :=
  let la := a.toList
  let lb := b.toList
  if la.length + lb.length = 0 then 100
  else 200 * lcs_length la lb / (la.length + lb.length)

/-- Inner loop of `return_distinct_values_by_threshold`, scanning the
partners `string_list[j]` for `j > i` in ascending order with the current
`string_list[i]` fixed: when `fuzz.ratio(string_list[i], string_list[j])
<= threshold` and `string_list[i] not in distinct_list`, append
`string_list[i]`. -/
def rdv_inner (ratio : String → String → Nat) (threshold : Nat)
    (xi : String) : List String → List String → List String
  | [], acc => acc
  | xj :: rest, acc =>
    rdv_inner ratio threshold xi rest
      (if ratio xi xj ≤ threshold ∧ xi ∉ acc then acc ++ [xi] else acc)

/-- Outer loop of `return_distinct_values_by_threshold`: visit the indices
`i` in ascending order; at each, the element `string_list[i]` and the list
of later elements drive the inner loop over the accumulator. -/
def rdv_outer (ratio : String → String → Nat) (threshold : Nat) :
    List String → List String → List String
  | [], acc => acc
  | x :: rest, acc =>
    rdv_outer ratio threshold rest (rdv_inner ratio threshold x rest acc)

/-- `return_distinct_values_by_threshold(string_list, threshold)` from
gather-targeted-publication-mentions.py, parameterized by the third-party
similarity scorer (`fuzz.ratio` in the source). -/
def return_distinct_values_by_threshold (ratio : String → String → Nat)
    (string_list : List String) (threshold : Nat) : List String :=
  rdv_outer ratio threshold string_list []

/-- Inner loop of the spec's reading of the same function, in which "the
second item is added to an explicit keep-distinct accumulator only if it
is not already present there". -/
def spec_rdv_inner (ratio : String → String → Nat) (threshold : Nat)
    (xi : String) : List String → List String → List String
  | [], acc => acc
  | xj :: rest, acc =>
    spec_rdv_inner ratio threshold xi rest
      (if ratio xi xj ≤ threshold ∧ xj ∉ acc then acc ++ [xj] else acc)

/-- Outer loop of the spec's reading of
`return_distinct_values_by_threshold`. -/
def spec_rdv_outer (ratio : String → String → Nat) (threshold : Nat) :
    List String → List String → List String
  | [], acc => acc
  | x :: rest, acc =>
    spec_rdv_outer ratio threshold rest (spec_rdv_inner ratio threshold x rest acc)

/-- The spec's reading of `return_distinct_values_by_threshold`, stated for
comparison with the source's behavior: same pair scan, but the SECOND item
of each qualifying pair is appended. -/
def spec_distinct_values_by_threshold (ratio : String → String → Nat)
    (string_list : List String) (threshold : Nat) : List String :=
  spec_rdv_outer ratio threshold string_list []

/-- `try_to_detect_license(repo)` from project-git-metrics.py: the fallible
GitHub API call `repo.get_license().license.spdx_id` is modelled as an
`Except` value; the wrapper returns its result on success and `None` when
it raises. -/
def try_to_detect_license (get_license : Except String String) : Option String :=
  match get_license with
  | Except.ok spdx_id => some spdx_id
  | Except.error _ => none

/-- `try_to_gather_commit_count(repo)` from project-git-metrics.py: the
fallible call `list(repo.get_commits())` is modelled as an `Except` value
carrying the commit list; the wrapper returns its length on success and
`0` when it raises. -/
def try_to_gather_commit_count (get_commits : Except String (List String)) : Nat :=
  match get_commits with
  | Except.ok commits => commits.length
  | Except.error _ => 0

/-- `safely_query_github_repo_from_archive_data(repo_full_name)` from
gather-targeted-github-data.py: return the fallible query's repository on
success and `None` when it raises. -/
def safely_query_github_repo_from_archive_data
    (get_repo : Except String String) : Option String :=
  match get_repo with
  | Except.ok repo => some repo
  | Except.error _ => none

/-! Helper lemmas about the `PyDict` operations. -/

theorem dictKeys_nil {α β : Type} : dictKeys ([] : PyDict α β) = [] := rfl

theorem dictKeys_cons {α β : Type} (p : α × β) (d : PyDict α β) :
    dictKeys (p :: d) = p.1 :: dictKeys d := rfl

theorem dictGet_nil {α β : Type} [DecidableEq α] (k : α) :
    dictGet ([] : PyDict α β) k = none := rfl

theorem dictGet_cons {α β : Type} [DecidableEq α] (p : α × β)
    (d : PyDict α β) (k : α) :
    dictGet (p :: d) k = if p.1 = k then some p.2 else dictGet d k := rfl

theorem dictSet_nil {α β : Type} [DecidableEq α] (k : α) (v : β) :
    dictSet ([] : PyDict α β) k v = [(k, v)] := rfl

theorem dictSet_cons {α β : Type} [DecidableEq α] (p : α × β)
    (d : PyDict α β) (k : α) (v : β) :
    dictSet (p :: d) k v =
      if p.1 = k then (k, v) :: d else p :: dictSet d k v := rfl

theorem dictUpdate_nil {α β : Type} [DecidableEq α] (d : PyDict α β) :
    dictUpdate d [] = d := rfl

theorem dictUpdate_cons {α β : Type} [DecidableEq α] (d : PyDict α β)
    (p : α × β) (u : PyDict α β) :
    dictUpdate d (p :: u) = dictUpdate (dictSet d p.1 p.2) u := rfl

theorem dictGet_eq_none_of_not_mem {α β : Type} [DecidableEq α]
    {d : PyDict α β} {k : α} (h : k ∉ dictKeys d) : dictGet d k = none := by
  induction d with
  | nil => rfl
  | cons hd tl ih =>
    rw [dictKeys_cons, List.mem_cons] at h
    push_neg at h
    rw [dictGet_cons, if_neg (fun hh => h.1 hh.symm)]
    exact ih h.2

theorem exists_dictGet_of_mem {α β : Type} [DecidableEq α]
    {d : PyDict α β} {k : α} (h : k ∈ dictKeys d) :
    ∃ v, dictGet d k = some v := by
  induction d with
  | nil => simp [dictKeys_nil] at h
  | cons hd tl ih =>
    by_cases hk : hd.1 = k
    · exact ⟨hd.2, by rw [dictGet_cons, if_pos hk]⟩
    · rw [dictKeys_cons, List.mem_cons] at h
      rcases h with h | h
      · exact absurd h.symm hk
      · obtain ⟨v, hv⟩ := ih h
        exact ⟨v, by rw [dictGet_cons, if_neg hk]; exact hv⟩

theorem mem_dictKeys_of_dictGet {α β : Type} [DecidableEq α]
    {d : PyDict α β} {k : α} {v : β} (h : dictGet d k = some v) :
    k ∈ dictKeys d := by
  by_contra hk
  rw [dictGet_eq_none_of_not_mem hk] at h
  exact Option.noConfusion h

theorem dictKeys_dictSet_of_mem {α β : Type} [DecidableEq α]
    {d : PyDict α β} {k : α} (v : β) (h : k ∈ dictKeys d) :
    dictKeys (dictSet d k v) = dictKeys d := by
  induction d with
  | nil => simp [dictKeys_nil] at h
  | cons hd tl ih =>
    by_cases hk : hd.1 = k
    · rw [dictSet_cons, if_pos hk, dictKeys_cons, dictKeys_cons, hk]
    · rw [dictKeys_cons, List.mem_cons] at h
      rcases h with h | h
      · exact absurd h.symm hk
      · rw [dictSet_cons, if_neg hk, dictKeys_cons, dictKeys_cons, ih h]

theorem dictSet_of_not_mem {α β : Type} [DecidableEq α]
    {d : PyDict α β} {k : α} (v : β) (h : k ∉ dictKeys d) :
    dictSet d k v = d ++ [(k, v)] := by
  induction d with
  | nil => rfl
  | cons hd tl ih =>
    rw [dictKeys_cons, List.mem_cons] at h
    push_neg at h
    rw [dictSet_cons, if_neg (fun hh => h.1 hh.symm), List.cons_append, ih h.2]

theorem dictGet_dictSet_self {α β : Type} [DecidableEq α]
    (d : PyDict α β) (k : α) (v : β) :
    dictGet (dictSet d k v) k = some v := by
  induction d with
  | nil => rw [dictSet_nil, dictGet_cons, if_pos rfl]
  | cons hd tl ih =>
    by_cases hk : hd.1 = k
    · rw [dictSet_cons, if_pos hk, dictGet_cons, if_pos rfl]
    · rw [dictSet_cons, if_neg hk, dictGet_cons, if_neg hk]
      exact ih

theorem dictGet_dictSet_ne {α β : Type} [DecidableEq α]
    (d : PyDict α β) {k k' : α} (v : β) (h : k' ≠ k) :
    dictGet (dictSet d k v) k' = dictGet d k' := by
  induction d with
  | nil =>
    rw [dictSet_nil, dictGet_cons, if_neg (fun hh => h hh.symm), dictGet_nil]
  | cons hd tl ih =>
    by_cases hk : hd.1 = k
    · rw [dictSet_cons, if_pos hk, dictGet_cons, dictGet_cons,
        if_neg (fun hh => h hh.symm), if_neg (by rw [hk]; exact fun hh => h hh.symm)]
    · rw [dictSet_cons, if_neg hk, dictGet_cons, dictGet_cons]
      by_cases hk' : hd.1 = k'
      · rw [if_pos hk', if_pos hk']
      · rw [if_neg hk', if_neg hk']
        exact ih

theorem dictKeys_dictUpdate_of_subset {α β : Type} [DecidableEq α]
    {u : PyDict α β} :
    ∀ {d : PyDict α β}, (∀ k ∈ dictKeys u, k ∈ dictKeys d) →
      dictKeys (dictUpdate d u) = dictKeys d := by
  induction u with
  | nil => intro d _; rfl
  | cons hd tl ih =>
    intro d hsub
    have hmem : hd.1 ∈ dictKeys d :=
      hsub hd.1 (by rw [dictKeys_cons]; exact List.mem_cons_self _ _)
    have hkeys : dictKeys (dictSet d hd.1 hd.2) = dictKeys d :=
      dictKeys_dictSet_of_mem hd.2 hmem
    rw [dictUpdate_cons, ih, hkeys]
    intro k hk
    rw [hkeys]
    exact hsub k (by rw [dictKeys_cons]; exact List.mem_cons_of_mem _ hk)

theorem dictGet_dictUpdate_of_not_mem {α β : Type} [DecidableEq α]
    {u : PyDict α β} {k : α} :
    ∀ {d : PyDict α β}, k ∉ dictKeys u →
      dictGet (dictUpdate d u) k = dictGet d k := by
  induction u with
  | nil => intro d _; rfl
  | cons hd tl ih =>
    intro d hk
    rw [dictKeys_cons, List.mem_cons] at hk
    push_neg at hk
    rw [dictUpdate_cons, ih hk.2, dictGet_dictSet_ne _ _ hk.1]

theorem dictGet_dictUpdate_of_get {α β : Type} [DecidableEq α]
    {u : PyDict α β} {k : α} {v : β} :
    ∀ {d : PyDict α β}, (dictKeys u).Nodup → dictGet u k = some v →
      dictGet (dictUpdate d u) k = some v := by
  induction u with
  | nil => intro d _ hget; exact absurd hget (by rw [dictGet_nil]; simp)
  | cons hd tl ih =>
    intro d hnd hget
    rw [dictKeys_cons, List.nodup_cons] at hnd
    by_cases hk : hd.1 = k
    · rw [dictGet_cons, if_pos hk] at hget
      rw [dictUpdate_cons,
        dictGet_dictUpdate_of_not_mem (by rw [← hk]; exact hnd.1), hk,
        dictGet_dictSet_self]
      exact hget
    · rw [dictGet_cons, if_neg hk] at hget
      rw [dictUpdate_cons]
      exact ih hnd.2 hget

theorem dictUpdate_of_disjoint {α β : Type} [DecidableEq α]
    {u : PyDict α β} :
    ∀ {d : PyDict α β}, (dictKeys u).Nodup →
      (∀ k ∈ dictKeys u, k ∉ dictKeys d) → dictUpdate d u = d ++ u := by
  induction u with
  | nil => intro d _ _; rw [dictUpdate_nil, List.append_nil]
  | cons hd tl ih =>
    intro d hnd hdis
    rw [dictKeys_cons, List.nodup_cons] at hnd
    have hset : dictSet d hd.1 hd.2 = d ++ [(hd.1, hd.2)] :=
      dictSet_of_not_mem hd.2
        (hdis hd.1 (by rw [dictKeys_cons]; exact List.mem_cons_self _ _))
    have hdis2 : ∀ k ∈ dictKeys tl, k ∉ dictKeys (dictSet d hd.1 hd.2) := by
      intro k hk
      rw [hset, dictKeys, List.map_append, List.mem_append]
      push_neg
      refine ⟨hdis k (by rw [dictKeys_cons]; exact List.mem_cons_of_mem _ hk), ?_⟩
      simp only [List.map_cons, List.map_nil, List.mem_singleton]
      intro hkk
      exact hnd.1 (hkk ▸ hk)
    rw [dictUpdate_cons, ih hnd.2 hdis2, hset, List.append_assoc,
      List.singleton_append]

theorem dictUpdate_nil_left {α β : Type} [DecidableEq α]
    {u : PyDict α β} (hnd : (dictKeys u).Nodup) : dictUpdate [] u = u := by
  rw [dictUpdate_of_disjoint hnd (by intro k _; rw [dictKeys_nil]; simp),
    List.nil_append]

/-! Helper lemmas about months and the month range. -/

theorem Month.toIdx_next (m : Month) : m.next.toIdx = m.toIdx + 1 := by
  by_cases h : m.month = 12
  · have hn : m.next = ⟨m.year + 1, 1⟩ := by simp [Month.next, h]
    rw [hn]
    unfold Month.toIdx
    dsimp only
    omega
  · have hn : m.next = ⟨m.year, m.month + 1⟩ := by simp [Month.next, h]
    rw [hn]
    unfold Month.toIdx
    dsimp only
    omega

theorem Month.next_valid {m : Month} (h : m.valid) : m.next.valid := by
  obtain ⟨h1, h2⟩ := h
  by_cases hm : m.month = 12
  · have hn : m.next = ⟨m.year + 1, 1⟩ := by simp [Month.next, hm]
    rw [hn]
    unfold Month.valid
    dsimp only
    omega
  · have hn : m.next = ⟨m.year, m.month + 1⟩ := by simp [Month.next, hm]
    rw [hn]
    unfold Month.valid
    dsimp only
    omega

theorem Month.toIdx_inj {a b : Month} (ha : a.valid) (hb : b.valid)
    (h : a.toIdx = b.toIdx) : a = b := by
  cases a with
  | mk ya ma =>
    cases b with
    | mk yb mb =>
      unfold Month.valid at ha hb
      unfold Month.toIdx at h
      simp only at ha hb h
      have : ya = yb ∧ ma = mb := by omega
      simp [this.1, this.2]

theorem monthRange_eq (s e : Month) :
    monthRange s e =
      if s.toIdx ≤ e.toIdx then s :: monthRange s.next e else [] := by
  unfold monthRange
  rcases le_or_lt s.toIdx e.toIdx with h | h
  · have h1 : e.toIdx + 1 - s.toIdx = (e.toIdx - s.toIdx) + 1 := by omega
    have h2 : e.toIdx + 1 - s.next.toIdx = e.toIdx - s.toIdx := by
      rw [Month.toIdx_next]; omega
    rw [h1, h2, monthRangeAux, if_pos h]
  · have h1 : e.toIdx + 1 - s.toIdx = 0 := by omega
    rw [h1, monthRangeAux, if_neg (by omega)]

theorem toIdx_le_of_mem_monthRangeAux {e m : Month} :
    ∀ (fuel : Nat) (s : Month), m ∈ monthRangeAux fuel s e →
      s.toIdx ≤ m.toIdx ∧ m.toIdx ≤ e.toIdx := by
  intro fuel
  induction fuel with
  | zero => intro s h; simp [monthRangeAux] at h
  | succ n ih =>
    intro s h
    rw [monthRangeAux] at h
    by_cases hg : s.toIdx ≤ e.toIdx
    · rw [if_pos hg] at h
      rcases List.mem_cons.mp h with h | h
      · subst h; exact ⟨Nat.le_refl _, hg⟩
      · have := ih s.next h
        rw [Month.toIdx_next] at this
        omega
    · rw [if_neg hg] at h
      simp at h

theorem toIdx_le_of_mem_monthRange {s e m : Month} (h : m ∈ monthRange s e) :
    s.toIdx ≤ m.toIdx ∧ m.toIdx ≤ e.toIdx :=
  toIdx_le_of_mem_monthRangeAux _ s h

theorem nodup_monthRangeAux {e : Month} :
    ∀ (fuel : Nat) (s : Month), (monthRangeAux fuel s e).Nodup := by
  intro fuel
  induction fuel with
  | zero => intro s; simp [monthRangeAux]
  | succ n ih =>
    intro s
    rw [monthRangeAux]
    by_cases hg : s.toIdx ≤ e.toIdx
    · rw [if_pos hg]
      refine List.nodup_cons.mpr ⟨?_, ih s.next⟩
      intro hmem
      have := (toIdx_le_of_mem_monthRangeAux n s.next hmem).1
      rw [Month.toIdx_next] at this
      omega
    · rw [if_neg hg]; exact List.nodup_nil

theorem nodup_monthRange (s e : Month) : (monthRange s e).Nodup :=
  nodup_monthRangeAux _ s

theorem valid_of_mem_monthRangeAux {e : Month} :
    ∀ (fuel : Nat) (s : Month), s.valid → ∀ m ∈ monthRangeAux fuel s e, m.valid := by
  intro fuel
  induction fuel with
  | zero => intro s _ m h; simp [monthRangeAux] at h
  | succ n ih =>
    intro s hs m h
    rw [monthRangeAux] at h
    by_cases hg : s.toIdx ≤ e.toIdx
    · rw [if_pos hg] at h
      rcases List.mem_cons.mp h with h | h
      · subst h; exact hs
      · exact ih s.next (Month.next_valid hs) m h
    · rw [if_neg hg] at h; simp at h

theorem mem_monthRange_of_between {e m : Month} :
    ∀ (gap : Nat) (s : Month), m.toIdx - s.toIdx = gap → s.valid → m.valid →
      s.toIdx ≤ m.toIdx → m.toIdx ≤ e.toIdx → m ∈ monthRange s e := by
  intro gap
  induction gap with
  | zero =>
    intro s hgap hs hm hsm hme
    have : m = s := Month.toIdx_inj hm hs (by omega)
    subst this
    rw [monthRange_eq, if_pos hme]
    exact List.mem_cons_self _ _
  | succ n ih =>
    intro s hgap hs hm hsm hme
    rw [monthRange_eq, if_pos (by omega)]
    refine List.mem_cons.mpr (Or.inr ?_)
    exact ih s.next (by rw [Month.toIdx_next]; omega) (Month.next_valid hs) hm
      (by rw [Month.toIdx_next]; omega) hme

theorem dictKeys_zeroFill (L : List Month) :
    dictKeys (L.map (fun m => (m, (0 : Nat)))) = L := by
  induction L with
  | nil => rfl
  | cons hd tl ih => rw [List.map_cons, dictKeys_cons, ih]

theorem dictGet_zeroFill_of_mem {L : List Month} {m : Month} (h : m ∈ L) :
    dictGet (L.map (fun x => (x, (0 : Nat)))) m = some 0 := by
  induction L with
  | nil => simp at h
  | cons hd tl ih =>
    by_cases hm : hd = m
    · simp [dictGet, hm]
    · rcases List.mem_cons.mp h with h | h
      · exact absurd h.symm hm
      · simp [dictGet, hm, ih h]

/-- C3 counterexample: with start 2021-05 after end 2021-01 but a sparse
input holding the out-of-range period 2020-01, `add_missing_months` does
not return an empty mapping — it returns the sparse input itself. -/
theorem claim_C3_counterexample :
    add_missing_months [(⟨2020, 1⟩, 5)] ⟨2021, 5⟩ ⟨2021, 1⟩ = [(⟨2020, 1⟩, 5)] ∧
    add_missing_months [(⟨2020, 1⟩, 5)] ⟨2021, 5⟩ ⟨2021, 1⟩ ≠ [] := by
  constructor
  · rfl
  · intro h
    exact List.noConfusion h

/-- C3 (amended): when start_period is after end_period the zero-filled
range is empty, so `add_missing_months` returns the sparse input passed
through unchanged — in particular the empty mapping exactly when the
sparse input is empty — and raises no error (it is a total function). -/
theorem claim_C3_amended (sparse : PyDict Month Nat) (s e : Month)
    (h : e.toIdx < s.toIdx) (hnd : (dictKeys sparse).Nodup) :
    add_missing_months sparse s e = sparse ∧
    (sparse = [] → add_missing_months sparse s e = []) := by
  have hrange : monthRange s e = [] := by
    rw [monthRange_eq, if_neg (by omega)]
  have hmain : add_missing_months sparse s e = sparse := by
    unfold add_missing_months
    rw [hrange, List.map_nil, dictUpdate_nil_left hnd]
  exact ⟨hmain, fun hempty => by rw [hmain, hempty]⟩

/-- C3 witness: the amended theorem applied at the concrete spec example
(start 2021-05, end 2021-01) with sparse input `{2020-01: 5}`. -/
theorem claim_C3_witness :
    add_missing_months [(⟨2020, 1⟩, 5)] ⟨2021, 5⟩ ⟨2021, 1⟩ = [(⟨2020, 1⟩, 5)] ∧
    add_missing_months [] ⟨2021, 5⟩ ⟨2021, 1⟩ = [] := by
  have h1 := claim_C3_amended [(⟨2020, 1⟩, 5)] ⟨2021, 5⟩ ⟨2021, 1⟩
    (by decide) (by decide)
  have h2 := claim_C3_amended [] ⟨2021, 5⟩ ⟨2021, 1⟩ (by decide) (by decide)
  exact ⟨h1.1, h2.2 rfl⟩

/-- C4: for start_period ≤ end_period and a sparse input whose keys lie in
the closed range, the output key list of `add_missing_months` is exactly
the closed month range (which contains precisely the valid months between
start and end), absent periods map to zero, and every period present in
the sparse input keeps its sparse value. -/
theorem claim_C4 (sparse : PyDict Month Nat) (s e : Month)
    (hse : s.toIdx ≤ e.toIdx) (hv : s.valid)
    (hsub : ∀ k ∈ dictKeys sparse, k ∈ monthRange s e)
    (hnd : (dictKeys sparse).Nodup) :
    dictKeys (add_missing_months sparse s e) = monthRange s e ∧
    (∀ m : Month, m ∈ monthRange s e ↔
      m.valid ∧ s.toIdx ≤ m.toIdx ∧ m.toIdx ≤ e.toIdx) ∧
    (∀ m ∈ monthRange s e, dictGet sparse m = none →
      dictGet (add_missing_months sparse s e) m = some 0) ∧
    (∀ (m : Month) (v : Nat), dictGet sparse m = some v →
      dictGet (add_missing_months sparse s e) m = some v) := by
  have hzk : dictKeys ((monthRange s e).map (fun m => (m, (0 : Nat)))) =
      monthRange s e := dictKeys_zeroFill _
  refine ⟨?_, ?_, ?_, ?_⟩
  · unfold add_missing_months
    rw [dictKeys_dictUpdate_of_subset, hzk]
    intro k hk
    rw [hzk]
    exact hsub k hk
  · intro m
    constructor
    · intro hm
      exact ⟨valid_of_mem_monthRangeAux _ s hv m hm,
        toIdx_le_of_mem_monthRange hm⟩
    · rintro ⟨hmv, hsm, hme⟩
      exact mem_monthRange_of_between _ s rfl hv hmv hsm hme
  · intro m hm hnone
    have hnotmem : m ∉ dictKeys sparse := by
      intro hmem
      obtain ⟨v, hv'⟩ := exists_dictGet_of_mem hmem
      rw [hv'] at hnone
      exact Option.noConfusion hnone
    unfold add_missing_months
    rw [dictGet_dictUpdate_of_not_mem hnotmem]
    exact dictGet_zeroFill_of_mem hm
  · intro m v hget
    unfold add_missing_months
    exact dictGet_dictUpdate_of_get hnd hget

/-- C4 witness: the theorem applied at the spec's concrete example —
sparse `{2021-03: 5}`, start 2021-01, end 2021-04 — giving zero for the
absent period 2021-02 and the sparse value for 2021-03. -/
theorem claim_C4_witness :
    dictKeys (add_missing_months [(⟨2021, 3⟩, 5)] ⟨2021, 1⟩ ⟨2021, 4⟩) =
      monthRange ⟨2021, 1⟩ ⟨2021, 4⟩ ∧
    dictGet (add_missing_months [(⟨2021, 3⟩, 5)] ⟨2021, 1⟩ ⟨2021, 4⟩)
      ⟨2021, 2⟩ = some 0 ∧
    dictGet (add_missing_months [(⟨2021, 3⟩, 5)] ⟨2021, 1⟩ ⟨2021, 4⟩)
      ⟨2021, 3⟩ = some 5 := by
  have h := claim_C4 [(⟨2021, 3⟩, 5)] ⟨2021, 1⟩ ⟨2021, 4⟩
    (by decide) (by decide) (by decide) (by decide)
  exact ⟨h.1, h.2.2.1 ⟨2021, 2⟩ (by decide) (by decide), h.2.2.2 ⟨2021, 3⟩ 5 rfl⟩

/-- C5: a sparse-input period that lies outside the closed range
[start_period, end_period] is passed through to the output unchanged (its
value is preserved and its key is present), and no error is raised
(`add_missing_months` is a total function). -/
theorem claim_C5 (sparse : PyDict Month Nat) (s e : Month) (k : Month)
    (hnd : (dictKeys sparse).Nodup) (hk : k ∈ dictKeys sparse)
    (hout : k ∉ monthRange s e) :
    dictGet (add_missing_months sparse s e) k = dictGet sparse k ∧
    k ∈ dictKeys (add_missing_months sparse s e) := by
  obtain ⟨v, hv⟩ := exists_dictGet_of_mem hk
  have hget : dictGet (add_missing_months sparse s e) k = some v := by
    unfold add_missing_months
    exact dictGet_dictUpdate_of_get hnd hv
  exact ⟨by rw [hget, hv], mem_dictKeys_of_dictGet hget⟩

/-- C5 witness: the theorem applied with sparse `{2020-01: 7}` and range
2021-01 through 2021-02; the out-of-range period 2020-01 keeps its value
and stays present. -/
theorem claim_C5_witness :
    dictGet (add_missing_months [(⟨2020, 1⟩, 7)] ⟨2021, 1⟩ ⟨2021, 2⟩) ⟨2020, 1⟩ =
      dictGet ([(⟨2020, 1⟩, 7)] : PyDict Month Nat) ⟨2020, 1⟩ ∧
    (⟨2020, 1⟩ : Month) ∈
      dictKeys (add_missing_months [(⟨2020, 1⟩, 7)] ⟨2021, 1⟩ ⟨2021, 2⟩) :=
  claim_C5 [(Month.mk 2020 1, 7)] (Month.mk 2021 1) (Month.mk 2021 2)
    (Month.mk 2020 1) (by decide) (by decide) (by decide)

/-- C6: `find_average` and `find_median` return `none` (not zero, not an
error — both are total functions) on the empty list; otherwise
`find_average` returns the arithmetic mean (`average([4, 6]) = 5`) and
`find_median` the standard median, averaging the two middle elements of
the sorted data for even length (`median([1, 2, 3, 4]) = 2.5`). -/
theorem claim_C6 :
    find_average [] = none ∧ find_median [] = none ∧
    (∀ nums : List Rat, nums ≠ [] →
      find_average nums = some (nums.sum / nums.length)) ∧
    find_average [4, 6] = some 5 ∧
    (∀ nums : List Rat, nums ≠ [] → nums.length % 2 = 0 →
      find_median nums = some
        (let s := List.insertionSort (· ≤ ·) nums
         (s.getD (s.length / 2 - 1) 0 + s.getD (s.length / 2) 0) / 2)) ∧
    find_median [1, 2, 3, 4] = some (5 / 2) := by
  refine ⟨rfl, rfl, ?_,
    by norm_num [find_average, List.sum_cons, List.sum_nil], ?_,
    by norm_num [find_median, statistics_median, List.insertionSort,
      List.orderedInsert]⟩
  · intro nums hne
    unfold find_average
    rw [if_pos (List.length_pos.mpr hne)]
  · intro nums hne heven
    unfold find_median statistics_median
    rw [if_pos (List.length_pos.mpr hne)]
    have hlen : (List.insertionSort (· ≤ ·) nums).length = nums.length :=
      List.length_insertionSort _ _
    have : (List.insertionSort (· ≤ ·) nums).length % 2 = 1 → False := by
      rw [hlen]; omega
    simp only [if_neg this]

/-- C7: the publication pool is collapsed by case-sensitive string
equality only — `all_article_titles` holds exactly the distinct raw
strings of the two pooled sources, each once — and `total_pub_count` is
the size of that exact-dedup set; `["Paper A", "Paper A", "Paper B"]`
gives 2, while a case variant such as `"paper a"` is counted as distinct. -/
theorem claim_C7 (google_scholar_titles bioarxiv_titles : List String) :
    total_pub_count google_scholar_titles bioarxiv_titles =
      (google_scholar_titles ++ bioarxiv_titles).toFinset.card ∧
    (∀ t, t ∈ all_article_titles google_scholar_titles bioarxiv_titles ↔
      t ∈ google_scholar_titles ++ bioarxiv_titles) ∧
    (all_article_titles google_scholar_titles bioarxiv_titles).Nodup ∧
    total_pub_count ["Paper A", "Paper A", "Paper B"] [] = 2 ∧
    total_pub_count ["Paper A"] ["paper a"] = 2 := by
  refine ⟨?_, ?_, List.nodup_dedup _, by decide, by decide⟩
  · rw [List.card_toFinset]
    rfl
  · intro t
    exact List.mem_dedup

/-- C8: the per-source try/except wrappers are total functions of the
fallible fetch outcome (no exception escapes); on failure the license
detector returns `none` while the commit-count gatherer returns the
numeric default `0`, and on success each returns the fetched value, so a
commit count of 0 is a value of `Nat` while an undetectable license is
the distinguished `none` of `Option`. -/
theorem claim_C8 :
    (∀ err : String, try_to_detect_license (Except.error err) = none) ∧
    (∀ err : String, try_to_gather_commit_count (Except.error err) = 0) ∧
    (∀ err : String,
      safely_query_github_repo_from_archive_data (Except.error err) = none) ∧
    (∀ spdx_id : String,
      try_to_detect_license (Except.ok spdx_id) = some spdx_id) ∧
    (∀ commits : List String,
      try_to_gather_commit_count (Except.ok commits) = commits.length) ∧
    (∀ err : String,
      (try_to_detect_license (Except.error err)).isSome = false) :=
  ⟨fun _ => rfl, fun _ => rfl, fun _ => rfl, fun _ => rfl, fun _ => rfl,
    fun _ => rfl⟩

/-- C9: the dependent-set union is idempotent — feeding one identifier
list as both the code-search source and the dependency-graph source
yields the same set (same members) and the same total_dependents_count
as feeding it once with the other source empty. -/
theorem claim_C9 (l : List String) :
    (∀ x, x ∈ github_total_dependent_set l (l.map DependentRepo.mk) ↔
      x ∈ github_total_dependent_set l []) ∧
    github_total_dependents_count l (l.map DependentRepo.mk) =
      github_total_dependents_count l [] := by
  have hmapname : (l.map DependentRepo.mk).map DependentRepo.name = l := by
    rw [List.map_map]
    exact List.map_id l
  constructor
  · intro x
    unfold github_total_dependent_set
    rw [hmapname, List.map_nil, List.append_nil]
    constructor
    · intro h
      rw [List.mem_dedup] at h
      rw [List.mem_dedup]
      exact (List.mem_append.mp h).elim id id
    · intro h
      rw [List.mem_dedup] at h
      rw [List.mem_dedup, List.mem_append]
      exact Or.inl h
  · unfold github_total_dependents_count github_total_dependent_set
    rw [hmapname, List.map_nil, List.append_nil]
    rw [← List.card_toFinset, ← List.card_toFinset, List.toFinset_append,
      Finset.union_self]

/-! Helper lemmas about the pairwise-comparison loops of
`return_distinct_values_by_threshold`. -/

theorem mem_rdv_inner (ratio : String → String → Nat) (th : Nat)
    (xi : String) :
    ∀ (rest acc : List String) (x : String),
      x ∈ rdv_inner ratio th xi rest acc ↔
        x ∈ acc ∨ (x = xi ∧ ∃ y ∈ rest, ratio xi y ≤ th) := by
  intro rest
  induction rest with
  | nil =>
    intro acc x
    simp [rdv_inner]
  | cons xj rest' ih =>
    intro acc x
    show x ∈ rdv_inner ratio th xi rest'
        (if ratio xi xj ≤ th ∧ xi ∉ acc then acc ++ [xi] else acc) ↔ _
    rw [ih]
    by_cases hr : ratio xi xj ≤ th
    · by_cases ha : xi ∈ acc
      · rw [if_neg (fun hc => hc.2 ha)]
        constructor
        · rintro (hx | ⟨hxi, y, hy, hry⟩)
          · exact Or.inl hx
          · exact Or.inr ⟨hxi, y, List.mem_cons_of_mem _ hy, hry⟩
        · rintro (hx | ⟨hxi, y, hy, hry⟩)
          · exact Or.inl hx
          · subst hxi
            exact Or.inl ha
      · rw [if_pos ⟨hr, ha⟩]
        constructor
        · rintro (hx | ⟨hxi, y, hy, hry⟩)
          · rcases List.mem_append.mp hx with hx | hx
            · exact Or.inl hx
            · rw [List.mem_singleton] at hx
              exact Or.inr ⟨hx, xj, List.mem_cons_self _ _, hr⟩
          · exact Or.inr ⟨hxi, y, List.mem_cons_of_mem _ hy, hry⟩
        · rintro (hx | ⟨hxi, y, hy, hry⟩)
          · exact Or.inl (List.mem_append.mpr (Or.inl hx))
          · exact Or.inl (List.mem_append.mpr (Or.inr (List.mem_singleton.mpr hxi)))
    · rw [if_neg (fun hc => hr hc.1)]
      constructor
      · rintro (hx | ⟨hxi, y, hy, hry⟩)
        · exact Or.inl hx
        · exact Or.inr ⟨hxi, y, List.mem_cons_of_mem _ hy, hry⟩
      · rintro (hx | ⟨hxi, y, hy, hry⟩)
        · exact Or.inl hx
        · rcases List.mem_cons.mp hy with heq | hy'
          · rw [heq] at hry
            exact absurd hry hr
          · exact Or.inr ⟨hxi, y, hy', hry⟩

theorem mem_rdv_outer (ratio : String → String → Nat) (th : Nat) :
    ∀ (l acc : List String) (x : String),
      x ∈ rdv_outer ratio th l acc ↔
        x ∈ acc ∨ ∃ l₁ l₂, l = l₁ ++ x :: l₂ ∧ ∃ y ∈ l₂, ratio x y ≤ th := by
  intro l
  induction l with
  | nil =>
    intro acc x
    show x ∈ acc ↔ _
    constructor
    · exact Or.inl
    · rintro (hx | ⟨l₁, l₂, heq, _, _, _⟩)
      · exact hx
      · cases l₁ with
        | nil => exact List.noConfusion heq
        | cons a l₁' => exact List.noConfusion heq
  | cons z zs ih =>
    intro acc x
    show x ∈ rdv_outer ratio th zs (rdv_inner ratio th z zs acc) ↔ _
    rw [ih, mem_rdv_inner]
    constructor
    · rintro ((hx | ⟨hxz, y, hy, hry⟩) | ⟨l₁, l₂, heq, y, hy, hry⟩)
      · exact Or.inl hx
      · subst hxz
        exact Or.inr ⟨[], zs, rfl, y, hy, hry⟩
      · exact Or.inr ⟨z :: l₁, l₂, by rw [heq, List.cons_append], y, hy, hry⟩
    · rintro (hx | ⟨l₁, l₂, heq, y, hy, hry⟩)
      · exact Or.inl (Or.inl hx)
      · cases l₁ with
        | nil =>
          rw [List.nil_append] at heq
          injection heq with h1 h2
          subst h1
          subst h2
          exact Or.inl (Or.inr ⟨rfl, y, hy, hry⟩)
        | cons w l₁' =>
          rw [List.cons_append] at heq
          injection heq with h1 h2
          exact Or.inr ⟨l₁', l₂, h2, y, hy, hry⟩

theorem nodup_rdv_inner (ratio : String → String → Nat) (th : Nat)
    (xi : String) :
    ∀ (rest acc : List String), acc.Nodup →
      (rdv_inner ratio th xi rest acc).Nodup := by
  intro rest
  induction rest with
  | nil => intro acc h; exact h
  | cons xj rest' ih =>
    intro acc h
    show (rdv_inner ratio th xi rest'
      (if ratio xi xj ≤ th ∧ xi ∉ acc then acc ++ [xi] else acc)).Nodup
    apply ih
    by_cases hc : ratio xi xj ≤ th ∧ xi ∉ acc
    · rw [if_pos hc, ← List.concat_eq_append]
      exact List.Nodup.concat hc.2 h
    · rw [if_neg hc]
      exact h

theorem nodup_rdv_outer (ratio : String → String → Nat) (th : Nat) :
    ∀ (l acc : List String), acc.Nodup → (rdv_outer ratio th l acc).Nodup := by
  intro l
  induction l with
  | nil => intro acc h; exact h
  | cons z zs ih =>
    intro acc h
    exact ih _ (nodup_rdv_inner ratio th z zs acc h)

theorem tail_eq_nil_of_not_mem_front {z : String} :
    ∀ (front l₁ l₂ : List String), z ∉ front →
      front ++ [z] = l₁ ++ z :: l₂ → l₂ = [] := by
  intro front
  induction front with
  | nil =>
    intro l₁ l₂ _ heq
    rw [List.nil_append] at heq
    cases l₁ with
    | nil =>
      rw [List.nil_append] at heq
      injection heq with _ h2
      exact h2.symm
    | cons a l₁' =>
      rw [List.cons_append] at heq
      injection heq with _ h2
      cases l₁' with
      | nil => exact List.noConfusion h2
      | cons b l₁'' => exact List.noConfusion h2
  | cons f front' ih =>
    intro l₁ l₂ hz heq
    rw [List.mem_cons] at hz
    push_neg at hz
    cases l₁ with
    | nil =>
      rw [List.nil_append] at heq
      rw [List.cons_append] at heq
      injection heq with h1 _
      exact absurd h1.symm hz.1
    | cons a l₁' =>
      rw [List.cons_append, List.cons_append] at heq
      injection heq with _ h2
      exact ih l₁' l₂ hz.2 h2

/-- C1 counterexample: on the titles ["a", "b"] with threshold 50 the
similarity score is 0 ≤ 50, and `return_distinct_values_by_threshold`
appends the FIRST item of the pair, returning ["a"]; the claim's reading
(append the second item, i.e. output = titles similar to an earlier-index
title) would return ["b"]. -/
theorem claim_C1_counterexample :
    return_distinct_values_by_threshold fuzz_ratio ["a", "b"] 50 = ["a"] ∧
    spec_distinct_values_by_threshold fuzz_ratio ["a", "b"] 50 = ["b"] ∧
    return_distinct_values_by_threshold fuzz_ratio ["a", "b"] 50 ≠
      spec_distinct_values_by_threshold fuzz_ratio ["a", "b"] 50 :=
  ⟨by decide, by decide, by decide⟩

/-- C1 (amended): the function compares pairs in ascending index order
(i, then j > i) and, when the similarity score is at or below the
threshold, adds the FIRST item of the pair to the distinct accumulator
only if it is not already present there; its output is exactly the titles
whose similarity to some LATER-index title is at or below the threshold,
each appearing at most once. -/
theorem claim_C1_amended (ratio : String → String → Nat)
    (string_list : List String) (threshold : Nat) :
    (∀ x : String,
      x ∈ return_distinct_values_by_threshold ratio string_list threshold ↔
        ∃ l₁ l₂, string_list = l₁ ++ x :: l₂ ∧
          ∃ y ∈ l₂, ratio x y ≤ threshold) ∧
    (return_distinct_values_by_threshold ratio string_list threshold).Nodup := by
  constructor
  · intro x
    unfold return_distinct_values_by_threshold
    rw [mem_rdv_outer]
    simp
  · exact nodup_rdv_outer ratio threshold string_list [] List.nodup_nil

/-- C10: `return_distinct_values_by_threshold` is a total (terminating)
function whose output is duplicate-free; every output element occurs in
the input; an input of length at most one gives an empty output; and the
input's last element appears in the output only if an equal string occurs
at an earlier index of the input. -/
theorem claim_C10 (ratio : String → String → Nat)
    (string_list : List String) (threshold : Nat) :
    (return_distinct_values_by_threshold ratio string_list threshold).Nodup ∧
    (∀ x ∈ return_distinct_values_by_threshold ratio string_list threshold,
      x ∈ string_list) ∧
    (string_list.length ≤ 1 →
      return_distinct_values_by_threshold ratio string_list threshold = []) ∧
    (∀ (front : List String) (z : String), string_list = front ++ [z] →
      z ∈ return_distinct_values_by_threshold ratio string_list threshold →
      z ∈ front) := by
  refine ⟨nodup_rdv_outer ratio threshold string_list [] List.nodup_nil,
    ?_, ?_, ?_⟩
  · intro x hx
    unfold return_distinct_values_by_threshold at hx
    rw [mem_rdv_outer] at hx
    rcases hx with hx | ⟨l₁, l₂, heq, _, _, _⟩
    · exact absurd hx (List.not_mem_nil x)
    · rw [heq]
      exact List.mem_append.mpr (Or.inr (List.mem_cons_self _ _))
  · intro hlen
    match string_list with
    | [] => rfl
    | [a] => rfl
    | a :: b :: rest => simp at hlen
  · intro front z heq hz
    unfold return_distinct_values_by_threshold at hz
    rw [mem_rdv_outer] at hz
    rcases hz with hz | ⟨l₁, l₂, heq', y, hy, _⟩
    · exact absurd hz (List.not_mem_nil z)
    · by_contra hznot
      rw [heq] at heq'
      have hnil : l₂ = [] := tail_eq_nil_of_not_mem_front front l₁ l₂ hznot heq'
      rw [hnil] at hy
      exact List.not_mem_nil y hy

/-- C2 counterexample: the dependency-graph source is unioned without any
self-exclusion filter, so when it reports the project's own identifier
("proj/self"), that identifier appears in the project's dependent set. -/
theorem claim_C2_counterexample :
    "proj/self" ∈ github_total_dependent_set
      (github_code_search_used_by [] "proj/self")
      [DependentRepo.mk "proj/self"] := by
  decide

/-- C2 (amended): within one project's dependent set no identifier appears
twice, and every member comes from one of the two sources; the project's
own identifier and the analysis repository's identifier (compared
case-insensitively) never enter through the code-search source even if it
reports them, but the dependency-graph source is passed through
unfiltered, so an own identifier reported there does appear. -/
theorem claim_C2_amended (results : List CodeSearchResult)
    (all_public_dependent_repos : List DependentRepo) (repo_full_name : String) :
    (github_total_dependent_set (github_code_search_used_by results repo_full_name)
      all_public_dependent_repos).Nodup ∧
    (∀ s : String,
      s.toLower = repo_full_name.toLower ∨
        s.toLower = "wayscience/software-landscape-analysis" →
      s ∉ github_code_search_used_by results repo_full_name) ∧
    (∀ s : String,
      s ∈ github_total_dependent_set
        (github_code_search_used_by results repo_full_name)
        all_public_dependent_repos →
      s ∈ github_code_search_used_by results repo_full_name ∨
        s ∈ all_public_dependent_repos.map DependentRepo.name) := by
  refine ⟨List.nodup_dedup _, ?_, ?_⟩
  · intro s hs hmem
    unfold github_code_search_used_by at hmem
    rw [List.mem_dedup] at hmem
    rcases List.mem_map.mp hmem with ⟨c, hc, hname⟩
    have hpred := (List.mem_filter.mp hc).2
    rw [Bool.and_eq_true, Bool.and_eq_true, Bool.and_eq_true] at hpred
    rcases hs with hs | hs
    · have h1 : (c.repository_full_name.toLower != repo_full_name.toLower) = true :=
        hpred.1.1.1
      rw [bne_iff_ne] at h1
      rw [← hname] at hs
      exact h1 hs
    · have h2 : (c.repository_full_name.toLower !=
          "wayscience/software-landscape-analysis") = true :=
        hpred.1.1.2
      rw [bne_iff_ne] at h2
      rw [← hname] at hs
      exact h2 hs
  · intro s hmem
    unfold github_total_dependent_set at hmem
    rw [List.mem_dedup] at hmem
    exact List.mem_append.mp hmem
